import Mathlib

/-!
Shallow embedding of `src/contracts/bridge/script/utils/strip_witness.py`.

The Python module exposes two functions:
  * `read_varint(data, pos)` — decodes a Bitcoin varint at `pos`;
  * `strip_witness_data(rawtx_hex)` — strips witness data from a SegWit
    transaction, returning the legacy serialization.

We model byte sequences as `List Nat` (each element one byte value), Python
slices `data[a:b]` (which clamp out-of-range bounds) as `pyslice`, and the
only runtime failure the Python code can produce — an `IndexError` from
`data[pos]` in `read_varint` — as `Except.error Err.OutOfBounds`.  The spec
also names an `InvalidRecord` error; the constructor is included so that the
spec's error vocabulary is expressible.

The per-claim theorems are at the end of the file.
-/

namespace StripWitness

abbrev Bytes := List Nat

inductive Err where
  | InvalidRecord
  | OutOfBounds
deriving DecidableEq, Repr

instance {ε α : Type} [DecidableEq ε] [DecidableEq α] : DecidableEq (Except ε α) := fun a b =>
  match a, b with
  | .error e, .error f =>
    if h : e = f then .isTrue (by rw [h]) else .isFalse (by simp [h])
  | .error _, .ok _ => .isFalse (by simp)
  | .ok _, .error _ => .isFalse (by simp)
  | .ok x, .ok y =>
    if h : x = y then .isTrue (by rw [h]) else .isFalse (by simp [h])

/-- Python slice `l[a:b]` for `0 ≤ a ≤ b`: out-of-range bounds clamp to the
length instead of failing.  (`l[-4:]` with `4 ≤ l.length` is `pyslice l
(l.length - 4) l.length`; truncated subtraction makes the `l.length < 4`
case agree with Python as well.) -/
def pyslice (l : Bytes) (a b : Nat) : Bytes := (l.drop a).take (b - a)

/-- Python `int.from_bytes(bs, 'little')`: little-endian interpretation of a
byte list (the first byte is least significant).  Decoding an empty or
short list is fine, exactly as in Python. -/
def fromLE : Bytes → Nat
  | [] => 0
  | b :: rest => b + 256 * fromLE rest

/-- `read_varint(data, pos)` from the source.  `data[pos]` raises
`IndexError` when `pos` is out of range (modelled as `OutOfBounds`); the
payload reads are Python slices, which clamp, so a short payload is decoded
from whatever bytes remain. -/
def read_varint (data : Bytes) (pos : Nat) : Except Err (Nat × Nat) :=
  match data[pos]? with
  | none => .error .OutOfBounds
  | some first_byte =>
    if first_byte < 0xfd then .ok (first_byte, 1)
    else if first_byte = 0xfd then .ok (fromLE (pyslice data (pos + 1) (pos + 3)), 3)
    else if first_byte = 0xfe then .ok (fromLE (pyslice data (pos + 1) (pos + 5)), 5)
    else .ok (fromLE (pyslice data (pos + 1) (pos + 9)), 9)

/-- The input-section loop of `strip_witness_data`: for each of `count`
inputs, skip the 36-byte previous-output reference, read the script-length
varint, skip the script and the 4-byte sequence field.  Returns the cursor
after the last input. -/
def skipInputs (raw : Bytes) : Nat → Nat → Except Err Nat
  | pos, 0 => .ok pos
  | pos, Nat.succ n =>
    match read_varint raw (pos + 36) with
    | .error e => .error e
    | .ok (script_len, varint_size) =>
      skipInputs raw (pos + 36 + varint_size + script_len + 4) n

/-- The output-section loop of `strip_witness_data`: for each of `count`
outputs, skip the 8-byte value, read the script-length varint, skip the
script. -/
def skipOutputs (raw : Bytes) : Nat → Nat → Except Err Nat
  | pos, 0 => .ok pos
  | pos, Nat.succ n =>
    match read_varint raw (pos + 8) with
    | .error e => .error e
    | .ok (script_len, varint_size) =>
      skipOutputs raw (pos + 8 + varint_size + script_len) n

/-- `strip_witness_data` from the source, on the byte level (hex
encoding/decoding at the process boundary is out of scope per the spec).

The source returns the input unchanged when it is shorter than 6 bytes or
bytes 4–5 are not the SegWit marker `(0x00, 0x01)`.  Otherwise it walks the
input and output sections and reassembles `version ++ inputs_data ++
outputs_data ++ locktime`, where `inputs_data = raw[6:posIn]` (the input
count varint starts at offset 6), `outputs_data = raw[posIn:posOut]` and
`locktime = raw[-4:]`. -/
def strip_witness_data (raw : Bytes) : Except Err Bytes :=
  if raw.length < 6 ∨ pyslice raw 4 6 ≠ [0x00, 0x01] then .ok raw
  else
    match read_varint raw 6 with
    | .error e => .error e
    | .ok (input_count, vs1) =>
      match skipInputs raw (6 + vs1) input_count with
      | .error e => .error e
      | .ok posIn =>
        match read_varint raw posIn with
        | .error e => .error e
        | .ok (output_count, vs2) =>
          match skipOutputs raw (posIn + vs2) output_count with
          | .error e => .error e
          | .ok posOut =>
            .ok (pyslice raw 0 4 ++ pyslice raw 6 posIn ++ pyslice raw posIn posOut
                  ++ pyslice raw (raw.length - 4) raw.length)

/-- Instrumented variant of `skipInputs` that also returns the number of
loop iterations actually performed. -/
def skipInputsSteps (raw : Bytes) : Nat → Nat → Except Err (Nat × Nat)
  | pos, 0 => .ok (pos, 0)
  | pos, Nat.succ n =>
    match read_varint raw (pos + 36) with
    | .error e => .error e
    | .ok (script_len, varint_size) =>
      match skipInputsSteps raw (pos + 36 + varint_size + script_len + 4) n with
      | .error e => .error e
      | .ok (p, k) => .ok (p, k + 1)

/-- Instrumented variant of `skipOutputs` that also returns the number of
loop iterations actually performed. -/
def skipOutputsSteps (raw : Bytes) : Nat → Nat → Except Err (Nat × Nat)
  | pos, 0 => .ok (pos, 0)
  | pos, Nat.succ n =>
    match read_varint raw (pos + 8) with
    | .error e => .error e
    | .ok (script_len, varint_size) =>
      match skipOutputsSteps raw (pos + 8 + varint_size + script_len) n with
      | .error e => .error e
      | .ok (p, k) => .ok (p, k + 1)

/-! ## Structured transactions and their serialization

A "valid tagged record" in the spec's sense is the SegWit serialization of a
structured transaction: version (4 bytes), marker `00 01`, varint input
count, inputs, varint output count, outputs, witness payload, locktime
(4 bytes). -/

/-- `k`-byte little-endian encoding of `n` (Python `n.to_bytes(k, 'little')`
semantics, truncating above `256^k`). -/
def toLE : Nat → Nat → Bytes
  | 0, _ => []
  | Nat.succ k, n => n % 256 :: toLE k (n / 256)

/-- Canonical Bitcoin varint encoding of `n`. -/
def encodeVarint (n : Nat) : Bytes :=
  if n < 0xfd then [n]
  else if n < 0x10000 then 0xfd :: toLE 2 n
  else if n < 0x100000000 then 0xfe :: toLE 4 n
  else 0xff :: toLE 8 n

structure TxIn where
  prevout : Bytes
  script : Bytes
  seqField : Bytes
deriving DecidableEq, Repr

structure TxOut where
  value : Bytes
  script : Bytes
deriving DecidableEq, Repr

structure SegwitTx where
  version : Bytes
  inputs : List TxIn
  outputs : List TxOut
  witness : Bytes
  locktime : Bytes
deriving DecidableEq, Repr

def encodeIn (i : TxIn) : Bytes :=
  i.prevout ++ encodeVarint i.script.length ++ i.script ++ i.seqField

def encodeOut (o : TxOut) : Bytes :=
  o.value ++ encodeVarint o.script.length ++ o.script

/-- The input-section byte range: the input-count varint followed by the
serialized inputs. -/
def encodeInputs (ins : List TxIn) : Bytes :=
  encodeVarint ins.length ++ (ins.map encodeIn).flatten

/-- The output-section byte range: the output-count varint followed by the
serialized outputs. -/
def encodeOutputs (outs : List TxOut) : Bytes :=
  encodeVarint outs.length ++ (outs.map encodeOut).flatten

/-- Full SegWit (tagged) serialization of a structured transaction. -/
def encodeTx (t : SegwitTx) : Bytes :=
  t.version ++ [0x00, 0x01] ++ encodeInputs t.inputs ++ encodeOutputs t.outputs
    ++ t.witness ++ t.locktime

/-- Structural well-formedness: all fixed-width fields have their mandated
widths, and every count or length fits in a varint's 64-bit range. -/
def Wellformed (t : SegwitTx) : Prop :=
  t.version.length = 4 ∧ t.locktime.length = 4 ∧
  t.inputs.length < 2 ^ 64 ∧ t.outputs.length < 2 ^ 64 ∧
  (∀ i ∈ t.inputs, i.prevout.length = 36 ∧ i.seqField.length = 4 ∧ i.script.length < 2 ^ 64) ∧
  (∀ o ∈ t.outputs, o.value.length = 8 ∧ o.script.length < 2 ^ 64)

instance (t : SegwitTx) : Decidable (Wellformed t) := by
  unfold Wellformed; infer_instance

/-- The spec's minimal tagged record: zero-length input and output lists,
empty witness payload. -/
def minimalTx : SegwitTx :=
  { version := [0, 0, 0, 0], inputs := [], outputs := [], witness := [],
    locktime := [0, 0, 0, 0] }

/-- A well-formed tagged record with zero inputs and one output: its
stripped form again carries `00 01` at bytes 4–5. -/
def zeroInputTx : SegwitTx :=
  { version := [0, 0, 0, 0], inputs := [],
    outputs := [{ value := [0, 0, 0, 0, 0, 0, 0, 0], script := [] }],
    witness := [], locktime := [0, 0, 0, 0] }

/-- A well-formed tagged record with one input, one output and a non-empty
witness payload. -/
def oneInTx : SegwitTx :=
  { version := [1, 0, 0, 0],
    inputs := [{ prevout := List.replicate 36 0xaa, script := [0x51],
                 seqField := [0xff, 0xff, 0xff, 0xff] }],
    outputs := [{ value := [0x10, 0, 0, 0, 0, 0, 0, 0], script := [0x6a, 0x00] }],
    witness := [0x01, 0x00], locktime := [7, 0, 0, 0] }

/-- A marker-bearing record whose single output claims a 200-byte script,
pushing the cursor far past the end of the buffer; the final slices clamp
and a result is still assembled from input bytes. -/
def clampRaw : Bytes :=
  [0, 0, 0, 0, 0, 1, 0, 1, 0, 0, 0, 0, 0, 0, 0, 0, 200, 0, 0, 0, 0]

/-- The result `strip_witness_data` produces on `clampRaw`. -/
def clampOut : Bytes :=
  [0, 0, 0, 0, 0, 1, 0, 0, 0, 0, 0, 0, 0, 0, 200, 0, 0, 0, 0, 0, 0, 0, 0]

/-! ## Helper lemmas -/

theorem pyslice_eq_of (raw pre mid suf : Bytes) (a b : Nat)
    (hraw : raw = pre ++ mid ++ suf) (ha : a = pre.length)
    (hb : b = pre.length + mid.length) :
    pyslice raw a b = mid := by
  subst hraw ha hb
  unfold pyslice
  simp [List.drop_left, List.take_left]

theorem pyslice_subset (l : Bytes) (a b : Nat) : pyslice l a b ⊆ l := by
  intro x hx
  exact List.drop_subset a l ((List.take_sublist _ _).subset hx)

theorem toLE_length (k n : Nat) : (toLE k n).length = k := by
  induction k generalizing n with
  | zero => rfl
  | succ k ih => simp [toLE, ih]

theorem fromLE_toLE (k n : Nat) : fromLE (toLE k n) = n % 256 ^ k := by
  induction k generalizing n with
  | zero => simp [toLE, fromLE, Nat.mod_one]
  | succ k ih =>
    rw [toLE, fromLE, ih, pow_succ, mul_comm (256 ^ k) 256, Nat.mod_mul]

theorem read_varint_at (data pre rest : Bytes) (n pos : Nat)
    (hdata : data = pre ++ encodeVarint n ++ rest) (hpos : pos = pre.length)
    (hn : n < 2 ^ 64) :
    read_varint data pos = .ok (n, (encodeVarint n).length) := by
  subst hdata hpos
  have hget0 : (pre ++ encodeVarint n ++ rest)[pre.length]? =
      (encodeVarint n ++ rest)[(0 : Nat)]? := by
    have h := @List.getElem?_append_right Nat pre (encodeVarint n ++ rest) pre.length (le_refl _)
    simpa using h
  by_cases h1 : n < 0xfd
  · have henc : encodeVarint n = [n] := by rw [encodeVarint, if_pos h1]
    rw [read_varint, hget0, henc]
    simp [h1]
  · by_cases h2 : n < 0x10000
    · have henc : encodeVarint n = 0xfd :: toLE 2 n := by
        rw [encodeVarint, if_neg h1, if_pos h2]
      have hslice : pyslice (pre ++ 0xfd :: (toLE 2 n ++ rest)) (pre.length + 1)
          (pre.length + 3) = toLE 2 n := by
        apply pyslice_eq_of _ (pre ++ [0xfd]) (toLE 2 n) rest
        · simp
        · simp
        · simp [toLE_length]
      rw [read_varint, hget0, henc]
      simp only [List.cons_append]
      simp [hslice, fromLE_toLE, toLE_length, Nat.mod_eq_of_lt h2]
    · by_cases h3 : n < 0x100000000
      · have henc : encodeVarint n = 0xfe :: toLE 4 n := by
          rw [encodeVarint, if_neg h1, if_neg h2, if_pos h3]
        have hslice : pyslice (pre ++ 0xfe :: (toLE 4 n ++ rest)) (pre.length + 1)
            (pre.length + 5) = toLE 4 n := by
          apply pyslice_eq_of _ (pre ++ [0xfe]) (toLE 4 n) rest
          · simp
          · simp
          · simp [toLE_length]
        rw [read_varint, hget0, henc]
        simp only [List.cons_append]
        simp [hslice, fromLE_toLE, toLE_length, Nat.mod_eq_of_lt h3]
      · have henc : encodeVarint n = 0xff :: toLE 8 n := by
          rw [encodeVarint, if_neg h1, if_neg h2, if_neg h3]
        have hslice : pyslice (pre ++ 0xff :: (toLE 8 n ++ rest)) (pre.length + 1)
            (pre.length + 9) = toLE 8 n := by
          apply pyslice_eq_of _ (pre ++ [0xff]) (toLE 8 n) rest
          · simp
          · simp
          · simp [toLE_length]
        rw [read_varint, hget0, henc]
        simp only [List.cons_append]
        have hn' : n < 256 ^ 8 := hn
        simp [hslice, fromLE_toLE, toLE_length, Nat.mod_eq_of_lt hn']
        omega

theorem skipInputs_concat (ins : List TxIn) (pre suf raw : Bytes) (pos : Nat)
    (hraw : raw = pre ++ (ins.map encodeIn).flatten ++ suf)
    (hpos : pos = pre.length)
    (hwf : ∀ i ∈ ins,
      i.prevout.length = 36 ∧ i.seqField.length = 4 ∧ i.script.length < 2 ^ 64) :
    skipInputs raw pos ins.length = .ok (pos + ((ins.map encodeIn).flatten).length) := by
  induction ins generalizing pre pos with
  | nil =>
    subst hpos
    simp [skipInputs]
  | cons i rest ih =>
    obtain ⟨hprev, hseq, hscr⟩ := hwf i (List.mem_cons_self i rest)
    have hraw' : raw = (pre ++ i.prevout) ++ encodeVarint i.script.length ++
        (i.script ++ (i.seqField ++ ((rest.map encodeIn).flatten ++ suf))) := by
      rw [hraw]; simp [encodeIn, List.append_assoc]
    have hv := read_varint_at raw (pre ++ i.prevout) _ i.script.length (pos + 36)
      hraw' (by simp [hpos, hprev]) hscr
    have hstep := ih (pre ++ encodeIn i)
      (pos + 36 + (encodeVarint i.script.length).length + i.script.length + 4)
      (by rw [hraw]; simp [List.append_assoc])
      (by simp [hpos, encodeIn, hprev, hseq]; omega)
      (fun j hj => hwf j (List.mem_cons_of_mem i hj))
    rw [List.length_cons]
    rw [skipInputs, hv]
    simp only []
    rw [hstep]
    congr 1
    simp [encodeIn, hprev, hseq]
    omega

theorem skipOutputs_concat (outs : List TxOut) (pre suf raw : Bytes) (pos : Nat)
    (hraw : raw = pre ++ (outs.map encodeOut).flatten ++ suf)
    (hpos : pos = pre.length)
    (hwf : ∀ o ∈ outs, o.value.length = 8 ∧ o.script.length < 2 ^ 64) :
    skipOutputs raw pos outs.length = .ok (pos + ((outs.map encodeOut).flatten).length) := by
  induction outs generalizing pre pos with
  | nil =>
    subst hpos
    simp [skipOutputs]
  | cons o rest ih =>
    obtain ⟨hval, hscr⟩ := hwf o (List.mem_cons_self o rest)
    have hraw' : raw = (pre ++ o.value) ++ encodeVarint o.script.length ++
        (o.script ++ ((rest.map encodeOut).flatten ++ suf)) := by
      rw [hraw]; simp [encodeOut, List.append_assoc]
    have hv := read_varint_at raw (pre ++ o.value) _ o.script.length (pos + 8)
      hraw' (by simp [hpos, hval]) hscr
    have hstep := ih (pre ++ encodeOut o)
      (pos + 8 + (encodeVarint o.script.length).length + o.script.length)
      (by rw [hraw]; simp [List.append_assoc])
      (by simp [hpos, encodeOut, hval]; omega)
      (fun j hj => hwf j (List.mem_cons_of_mem o hj))
    rw [List.length_cons]
    rw [skipOutputs, hv]
    simp only []
    rw [hstep]
    congr 1
    simp [encodeOut, hval]
    omega

/-- The central lemma: `strip_witness_data` on a marker-bearing record with
well-formed input and output sections walks both sections exactly and
reassembles `version ++ input section ++ output section ++ (last 4 bytes)`,
for an arbitrary tail `suf` (witness payload plus trailer, possibly
truncated). -/
theorem strip_concat (v suf : Bytes) (ins : List TxIn) (outs : List TxOut)
    (hv : v.length = 4)
    (hins : ∀ i ∈ ins,
      i.prevout.length = 36 ∧ i.seqField.length = 4 ∧ i.script.length < 2 ^ 64)
    (houts : ∀ o ∈ outs, o.value.length = 8 ∧ o.script.length < 2 ^ 64)
    (hic : ins.length < 2 ^ 64) (hoc : outs.length < 2 ^ 64) :
    strip_witness_data (v ++ [0x00, 0x01] ++ encodeInputs ins ++ encodeOutputs outs ++ suf)
      = .ok (v ++ encodeInputs ins ++ encodeOutputs outs ++
          pyslice (v ++ [0x00, 0x01] ++ encodeInputs ins ++ encodeOutputs outs ++ suf)
            ((v ++ [0x00, 0x01] ++ encodeInputs ins ++ encodeOutputs outs ++ suf).length - 4)
            (v ++ [0x00, 0x01] ++ encodeInputs ins ++ encodeOutputs outs ++ suf).length) := by
  set raw := v ++ [0x00, 0x01] ++ encodeInputs ins ++ encodeOutputs outs ++ suf with hraw
  have hlen : raw.length =
      4 + 2 + (encodeInputs ins).length + (encodeOutputs outs).length + suf.length := by
    rw [hraw]; simp [hv]; omega
  have hmarker : pyslice raw 4 6 = [0x00, 0x01] :=
    pyslice_eq_of raw v [0x00, 0x01] (encodeInputs ins ++ encodeOutputs outs ++ suf) 4 6
      (by rw [hraw]; try simp [List.append_assoc]) (by omega) (by simp [hv]; try omega)
  have hcond : ¬ (raw.length < 6 ∨ pyslice raw 4 6 ≠ [0x00, 0x01]) := by
    push_neg
    exact ⟨by omega, hmarker⟩
  have hv1 : read_varint raw 6 = .ok (ins.length, (encodeVarint ins.length).length) :=
    read_varint_at raw (v ++ [0x00, 0x01])
      ((ins.map encodeIn).flatten ++ encodeOutputs outs ++ suf) ins.length 6
      (by rw [hraw]; try simp [encodeInputs, List.append_assoc]) (by simp [hv]; try omega) hic
  have hwalkIn : skipInputs raw (6 + (encodeVarint ins.length).length) ins.length
      = .ok (6 + (encodeVarint ins.length).length + ((ins.map encodeIn).flatten).length) :=
    skipInputs_concat ins (v ++ [0x00, 0x01] ++ encodeVarint ins.length)
      (encodeOutputs outs ++ suf) raw _
      (by rw [hraw]; try simp [encodeInputs, List.append_assoc]) (by simp [hv]; try omega) hins
  have hposIn : 6 + (encodeVarint ins.length).length + ((ins.map encodeIn).flatten).length
      = 6 + (encodeInputs ins).length := by
    simp [encodeInputs]; omega
  have hv2 : read_varint raw (6 + (encodeInputs ins).length)
      = .ok (outs.length, (encodeVarint outs.length).length) :=
    read_varint_at raw (v ++ [0x00, 0x01] ++ encodeInputs ins)
      ((outs.map encodeOut).flatten ++ suf) outs.length _
      (by rw [hraw]; try simp [encodeOutputs, List.append_assoc]) (by simp [hv]; try omega) hoc
  have hwalkOut : skipOutputs raw (6 + (encodeInputs ins).length +
        (encodeVarint outs.length).length) outs.length
      = .ok (6 + (encodeInputs ins).length + (encodeVarint outs.length).length
          + ((outs.map encodeOut).flatten).length) :=
    skipOutputs_concat outs (v ++ [0x00, 0x01] ++ encodeInputs ins ++ encodeVarint outs.length)
      suf raw _
      (by rw [hraw]; try simp [encodeOutputs, List.append_assoc]) (by simp [hv]; try omega) houts
  have hposOut : 6 + (encodeInputs ins).length + (encodeVarint outs.length).length
      + ((outs.map encodeOut).flatten).length
      = 6 + (encodeInputs ins).length + (encodeOutputs outs).length := by
    simp [encodeOutputs]; omega
  have hs0 : pyslice raw 0 4 = v :=
    pyslice_eq_of raw [] v ([0x00, 0x01] ++ encodeInputs ins ++ encodeOutputs outs ++ suf) 0 4
      (by rw [hraw]; try simp [List.append_assoc]) (by simp) (by simp [hv]; try omega)
  have hs1 : pyslice raw 6 (6 + (encodeInputs ins).length) = encodeInputs ins :=
    pyslice_eq_of raw (v ++ [0x00, 0x01]) (encodeInputs ins) (encodeOutputs outs ++ suf) 6 _
      (by rw [hraw]; try simp [List.append_assoc]) (by simp [hv]; try omega) (by simp [hv]; try omega)
  have hs2 : pyslice raw (6 + (encodeInputs ins).length)
      (6 + (encodeInputs ins).length + (encodeOutputs outs).length) = encodeOutputs outs :=
    pyslice_eq_of raw (v ++ [0x00, 0x01] ++ encodeInputs ins) (encodeOutputs outs) suf _ _
      (by rw [hraw]; try simp [List.append_assoc]) (by simp [hv]; try omega) (by simp [hv]; try omega)
  rw [strip_witness_data, if_neg hcond, hv1]
  simp only []
  rw [hwalkIn]
  simp only []
  rw [hposIn, hv2]
  simp only []
  rw [hwalkOut]
  simp only []
  rw [hposOut, hs0, hs1, hs2]

theorem pyslice_last (raw front lock : Bytes) (h : raw = front ++ lock)
    (hl : lock.length = 4) :
    pyslice raw (raw.length - 4) raw.length = lock := by
  apply pyslice_eq_of raw front lock []
  · rw [h]; simp
  · rw [h]; simp [hl]
  · rw [h]; simp [hl]

theorem dropLast_append_ne (l₁ l₂ : Bytes) (h : l₂ ≠ []) :
    (l₁ ++ l₂).dropLast = l₁ ++ l₂.dropLast := by
  rw [List.dropLast_append, if_neg]
  simp [h]

theorem encodeVarint_head_ne (n : Nat) (hn : n ≠ 0) :
    ∃ b l, encodeVarint n = b :: l ∧ b ≠ 0 := by
  unfold encodeVarint
  split_ifs with h1 h2 h3
  · exact ⟨n, [], rfl, hn⟩
  · exact ⟨0xfd, toLE 2 n, rfl, by omega⟩
  · exact ⟨0xfe, toLE 4 n, rfl, by omega⟩
  · exact ⟨0xff, toLE 8 n, rfl, by omega⟩

theorem marker_check_of_head_ne (out pre : Bytes) (b : Nat) (rest : Bytes)
    (hout : out = pre ++ b :: rest) (hpre : pre.length = 4) (hb : b ≠ 0) :
    pyslice out 4 6 ≠ [0x00, 0x01] := by
  subst hout
  unfold pyslice
  rw [List.drop_left' hpre]
  have ht : List.take (6 - 4) (b :: rest) = b :: List.take 1 rest := rfl
  rw [ht]
  intro hEq
  exact hb (List.cons.injEq _ _ _ _ ▸ hEq).1

theorem marker_bytes_of_pyslice (raw : Bytes) (hs : pyslice raw 4 6 = [0x00, 0x01]) :
    raw[4]? = some 0x00 ∧ raw[5]? = some 0x01 := by
  have h0 : (pyslice raw 4 6)[(0 : Nat)]? = some 0x00 := by rw [hs]; rfl
  have h1 : (pyslice raw 4 6)[(1 : Nat)]? = some 0x01 := by rw [hs]; rfl
  unfold pyslice at h0 h1
  rw [List.getElem?_take] at h0 h1
  simp only [show (0 : Nat) < 6 - 4 by omega, if_pos, show (1 : Nat) < 6 - 4 by omega] at h0 h1
  rw [List.getElem?_drop] at h0 h1
  constructor
  · exact h0
  · exact h1

theorem skipInputsSteps_count (raw : Bytes) (n : Nat) :
    ∀ pos p, skipInputs raw pos n = .ok p → skipInputsSteps raw pos n = .ok (p, n) := by
  induction n with
  | zero =>
    intro pos p h
    rw [skipInputs] at h
    cases h
    rfl
  | succ n ih =>
    intro pos p h
    rw [skipInputs] at h
    rw [skipInputsSteps]
    rcases hv : read_varint raw (pos + 36) with e | ⟨sl, w⟩
    · rw [hv] at h; simp at h
    · rw [hv] at h
      simp only [] at h
      simp only []
      rw [ih _ _ h]

theorem skipOutputsSteps_count (raw : Bytes) (n : Nat) :
    ∀ pos p, skipOutputs raw pos n = .ok p → skipOutputsSteps raw pos n = .ok (p, n) := by
  induction n with
  | zero =>
    intro pos p h
    rw [skipOutputs] at h
    cases h
    rfl
  | succ n ih =>
    intro pos p h
    rw [skipOutputs] at h
    rw [skipOutputsSteps]
    rcases hv : read_varint raw (pos + 8) with e | ⟨sl, w⟩
    · rw [hv] at h; simp at h
    · rw [hv] at h
      simp only [] at h
      simp only []
      rw [ih _ _ h]

/-- `strip_witness_data` on the full serialization of a well-formed tagged
transaction: the marker is detected, both sections are walked exactly, and
the reassembled result is `version ++ input section ++ output section ++
locktime`. -/
theorem strip_encode (t : SegwitTx) (h : Wellformed t) :
    strip_witness_data (encodeTx t)
      = .ok (t.version ++ encodeInputs t.inputs ++ encodeOutputs t.outputs ++ t.locktime) := by
  obtain ⟨hv, hlock, hic, hoc, hins, houts⟩ := h
  have he : encodeTx t = t.version ++ [0x00, 0x01] ++ encodeInputs t.inputs
      ++ encodeOutputs t.outputs ++ (t.witness ++ t.locktime) := by
    simp [encodeTx, List.append_assoc]
  have hmain := strip_concat t.version (t.witness ++ t.locktime) t.inputs t.outputs
    hv hins houts hic hoc
  rw [he, hmain]
  congr 1
  congr 1
  apply pyslice_last _ (t.version ++ [0x00, 0x01] ++ encodeInputs t.inputs
    ++ encodeOutputs t.outputs ++ t.witness) t.locktime
  · simp [List.append_assoc]
  · exact hlock

/-! ## Claim theorems -/

/-- Claim C1, counterexample: on the 3-byte input the code does not fail
with InvalidRecord — it returns the input unchanged as a success value. -/
theorem claim_C1_counterexample :
    strip_witness_data [0, 0, 0] = .ok [0, 0, 0] := by decide

/-- Claim C1 (amended): for every input shorter than 6 bytes, rewrite
returns the input unchanged as a normal result; no InvalidRecord (or any
other) error is raised. -/
theorem claim_C1_short_input_returns_input (raw : Bytes) (h : raw.length < 6) :
    strip_witness_data raw = .ok raw := by
  rw [strip_witness_data, if_pos (Or.inl h)]

theorem claim_C1_witness :
    ([1, 2] : Bytes).length < 6 ∧ strip_witness_data [1, 2] = .ok [1, 2] :=
  ⟨by decide, claim_C1_short_input_returns_input [1, 2] (by decide)⟩

/-- Claim C2, counterexample: at offset 0 of the 1-byte sequence `[0xfd]`
the two payload bytes demanded by the discriminant lie past the end, yet
the Varint Reader does not fail with OutOfBounds — the payload slice clamps
and it returns `(0, 3)`. -/
theorem claim_C2_counterexample :
    read_varint [0xfd] 0 = .ok (0, 3) := by decide

/-- Claim C2 (amended): the Varint Reader fails with OutOfBounds exactly
when the offset itself lies past the end of the sequence; whenever the
offset is in range it returns a decoded value and width, even if the
payload bytes demanded by a discriminant of 253/254/255 run past the end
(the payload slice clamps). -/
theorem claim_C2_oob_iff_offset (data : Bytes) (pos : Nat) :
    (read_varint data pos = .error Err.OutOfBounds ↔ data.length ≤ pos) ∧
    ((read_varint data pos).isOk = true ↔ pos < data.length) := by
  rcases h : data[pos]? with _ | b
  · have hlen : data.length ≤ pos := List.getElem?_eq_none_iff.mp h
    rw [read_varint, h]
    constructor
    · simp [hlen]
    · constructor
      · intro hh
        simp [Except.isOk, Except.toBool] at hh
      · intro hh
        omega
  · have hlt : pos < data.length := by
      by_contra hge
      push_neg at hge
      rw [List.getElem?_eq_none hge] at h
      simp at h
    rw [read_varint, h]
    simp only []
    constructor
    · split_ifs <;> simp <;> omega
    · split_ifs <;> simp [Except.isOk, Except.toBool, hlt]

/-- Claim C5: a byte sequence of length at least 6 whose bytes at offsets
4 and 5 are not `(0x00, 0x01)` is returned exactly as supplied, as a
normal non-error outcome. -/
theorem claim_C5_no_op_on_untagged (raw : Bytes) (h6 : 6 <= raw.length)
    (hm : ¬ (raw[4]? = some 0x00 ∧ raw[5]? = some 0x01)) :
    strip_witness_data raw = .ok raw := by
  rw [strip_witness_data, if_pos]
  right
  intro hs
  exact hm (marker_bytes_of_pyslice raw hs)

theorem claim_C5_witness :
    (6 <= ([9, 9, 9, 9, 9, 9] : Bytes).length
      ∧ ¬ (([9, 9, 9, 9, 9, 9] : Bytes)[4]? = some 0x00
            ∧ ([9, 9, 9, 9, 9, 9] : Bytes)[5]? = some 0x01))
    ∧ strip_witness_data [9, 9, 9, 9, 9, 9] = .ok [9, 9, 9, 9, 9, 9] :=
  ⟨⟨by decide, by decide⟩,
   claim_C5_no_op_on_untagged [9, 9, 9, 9, 9, 9] (by decide) (by decide)⟩

/-- Claim C6: with the discriminant byte present at the offset (and, for
253/254/255, the 2/4/8 payload bytes in range), the Varint Reader returns
the discriminant itself with width 1 when it is below 253, and the next
2/4/8 bytes interpreted little-endian with widths 3/5/9 for discriminants
253/254/255. -/
theorem claim_C6_varint_decoding (data : Bytes) (pos b : Nat)
    (hb : data[pos]? = some b) :
    (b < 253 → read_varint data pos = .ok (b, 1)) ∧
    (b = 253 → pos + 3 <= data.length →
      read_varint data pos = .ok (fromLE (pyslice data (pos + 1) (pos + 3)), 3)) ∧
    (b = 254 → pos + 5 <= data.length →
      read_varint data pos = .ok (fromLE (pyslice data (pos + 1) (pos + 5)), 5)) ∧
    (b = 255 → pos + 9 <= data.length →
      read_varint data pos = .ok (fromLE (pyslice data (pos + 1) (pos + 9)), 9)) := by
  refine ⟨?_, ?_, ?_, ?_⟩
  · intro h
    rw [read_varint, hb]
    simp [h]
  · intro h _
    subst h
    rw [read_varint, hb]
    simp
  · intro h _
    subst h
    rw [read_varint, hb]
    simp
  · intro h _
    subst h
    rw [read_varint, hb]
    simp

theorem claim_C6_witness :
    (([253, 5, 1] : Bytes)[0]? = some 253 ∧ (0 : Nat) + 3 <= ([253, 5, 1] : Bytes).length)
    ∧ read_varint [253, 5, 1] 0 = .ok (261, 3) :=
  ⟨⟨by decide, by decide⟩,
   ((claim_C6_varint_decoding [253, 5, 1] 0 253 (by decide)).2.1 rfl (by decide)).trans
     (by decide)⟩

/-- Claim C9: the repeated-section walks of rewrite are loops that, on any
input on which they return a cursor (rather than propagating an error),
perform exactly the decoded count iterations; the whole operation is a
total function built from these two count-bounded loops. -/
theorem claim_C9_walks_iterate_count (raw : Bytes) (pos n p : Nat) :
    (skipInputs raw pos n = .ok p → skipInputsSteps raw pos n = .ok (p, n)) ∧
    (skipOutputs raw pos n = .ok p → skipOutputsSteps raw pos n = .ok (p, n)) :=
  ⟨skipInputsSteps_count raw n pos p, skipOutputsSteps_count raw n pos p⟩

theorem claim_C9_witness :
    skipInputs (encodeTx oneInTx) 7 1 = .ok 49 ∧
    skipInputsSteps (encodeTx oneInTx) 7 1 = .ok (49, 1) :=
  ⟨by decide, (claim_C9_walks_iterate_count (encodeTx oneInTx) 7 1 49).1 (by decide)⟩

/-- Claim C3, counterexample: the minimal tagged record truncated by its
final byte does not fail with OutOfBounds — rewrite returns a result. -/
theorem claim_C3_counterexample :
    Wellformed minimalTx
    ∧ (encodeTx minimalTx).dropLast = [0, 0, 0, 0, 0, 1, 0, 0, 0, 0, 0]
    ∧ strip_witness_data ((encodeTx minimalTx).dropLast)
        = .ok [0, 0, 0, 0, 0, 0, 0, 0, 0, 0] :=
  ⟨by decide, by decide, by decide⟩

/-- Claim C3 (amended): removing the final byte of a valid tagged record
never makes rewrite fail.  Every varint discriminant of a valid record sits
at least 5 bytes before the end, and all slices (including the end-anchored
trailer read) clamp, so rewrite still returns a result on the truncated
input. -/
theorem claim_C3_truncation_returns_result (t : SegwitTx) (h : Wellformed t) :
    ∃ out, strip_witness_data ((encodeTx t).dropLast) = .ok out := by
  obtain ⟨hv, hlock, hic, hoc, hins, houts⟩ := h
  have hlockne : t.locktime ≠ [] := by
    intro he
    rw [he] at hlock
    simp at hlock
  have hd : (encodeTx t).dropLast
      = t.version ++ [0x00, 0x01] ++ encodeInputs t.inputs ++ encodeOutputs t.outputs
        ++ (t.witness ++ t.locktime.dropLast) := by
    rw [encodeTx, dropLast_append_ne _ _ hlockne]
    simp [List.append_assoc]
  rw [hd]
  exact ⟨_, strip_concat t.version (t.witness ++ t.locktime.dropLast) t.inputs t.outputs
    hv hins houts hic hoc⟩

theorem claim_C3_witness :
    Wellformed minimalTx
    ∧ ∃ out, strip_witness_data ((encodeTx minimalTx).dropLast) = .ok out :=
  ⟨by decide, claim_C3_truncation_returns_result minimalTx (by decide)⟩

/-- Claim C4, counterexample: `zeroInputTx` is a well-formed tagged record
(zero inputs, one output) whose stripped form again carries `(0x00, 0x01)`
at bytes 4–5, so the second application of rewrite strips it further:
`rewrite (rewrite x) ≠ rewrite x`. -/
theorem claim_C4_counterexample :
    Wellformed zeroInputTx
    ∧ strip_witness_data (encodeTx zeroInputTx)
        = .ok [0, 0, 0, 0, 0, 1, 0, 0, 0, 0, 0, 0, 0, 0, 0, 0, 0, 0, 0]
    ∧ strip_witness_data [0, 0, 0, 0, 0, 1, 0, 0, 0, 0, 0, 0, 0, 0, 0, 0, 0, 0, 0]
        ≠ .ok [0, 0, 0, 0, 0, 1, 0, 0, 0, 0, 0, 0, 0, 0, 0, 0, 0, 0, 0] :=
  ⟨by decide, by decide, by decide⟩

/-- Claim C4 (amended): rewrite is idempotent on every valid tagged record
with at least one input: the stripped result then starts with a non-zero
byte at offset 4 (the input-count varint), so the second application sees
no marker and returns its input unchanged.  (With zero inputs the stripped
result can itself look tagged and be stripped again.) -/
theorem claim_C4_idempotent_with_input (t : SegwitTx) (h : Wellformed t)
    (hne : t.inputs ≠ []) :
    ∃ out, strip_witness_data (encodeTx t) = .ok out
      ∧ strip_witness_data out = .ok out := by
  have hv : t.version.length = 4 := h.1
  obtain ⟨b, l, henc, hb⟩ := encodeVarint_head_ne t.inputs.length (by simpa using hne)
  have hout : t.version ++ encodeInputs t.inputs ++ encodeOutputs t.outputs ++ t.locktime
      = t.version ++ b :: (l ++ (t.inputs.map encodeIn).flatten
          ++ (encodeOutputs t.outputs ++ t.locktime)) := by
    simp [encodeInputs, henc, List.append_assoc]
  have hm := marker_check_of_head_ne _ t.version b _ hout hv hb
  exact ⟨_, strip_encode t h, by rw [strip_witness_data, if_pos (Or.inr hm)]⟩

theorem claim_C4_witness :
    (Wellformed oneInTx ∧ oneInTx.inputs ≠ [])
    ∧ ∃ out, strip_witness_data (encodeTx oneInTx) = .ok out
        ∧ strip_witness_data out = .ok out :=
  ⟨⟨by decide, by decide⟩, claim_C4_idempotent_with_input oneInTx (by decide) (by decide)⟩

/-- Claim C7: for a valid tagged record the rewritten length is exactly
`4 + inputSectionLen + outputSectionLen + 4`, and is strictly below the
original length whenever the witness payload is non-empty. -/
theorem claim_C7_length_relation (t : SegwitTx) (h : Wellformed t) :
    ∃ out, strip_witness_data (encodeTx t) = .ok out
      ∧ out.length
          = 4 + (encodeInputs t.inputs).length + (encodeOutputs t.outputs).length + 4
      ∧ (t.witness ≠ [] → out.length < (encodeTx t).length) := by
  refine ⟨_, strip_encode t h, ?_, ?_⟩
  · simp [h.1, h.2.1]
    try omega
  · intro _
    simp [encodeTx, h.1, h.2.1]
    try omega

theorem claim_C7_witness :
    (Wellformed oneInTx ∧ oneInTx.witness ≠ [])
    ∧ ∃ out, strip_witness_data (encodeTx oneInTx) = .ok out
        ∧ out.length = 4 + (encodeInputs oneInTx.inputs).length
            + (encodeOutputs oneInTx.outputs).length + 4
        ∧ (oneInTx.witness ≠ [] → out.length < (encodeTx oneInTx).length) :=
  ⟨⟨by decide, by decide⟩, claim_C7_length_relation oneInTx (by decide)⟩

/-- Claim C8: for a valid tagged record the output is exactly header
(first 4 bytes) ++ input-section range (starting with the input-count
varint) ++ output-section range ++ trailer (last 4 bytes of the raw
input); the 2-byte marker is consumed but excluded, and no other bytes
appear. -/
theorem claim_C8_assembly (t : SegwitTx) (h : Wellformed t) :
    strip_witness_data (encodeTx t)
      = .ok (t.version ++ encodeInputs t.inputs ++ encodeOutputs t.outputs ++ t.locktime)
    ∧ pyslice (encodeTx t) 0 4 = t.version
    ∧ pyslice (encodeTx t) ((encodeTx t).length - 4) (encodeTx t).length = t.locktime := by
  refine ⟨strip_encode t h, ?_, ?_⟩
  · apply pyslice_eq_of _ [] t.version
      ([0x00, 0x01] ++ encodeInputs t.inputs ++ encodeOutputs t.outputs
        ++ t.witness ++ t.locktime)
    · simp [encodeTx, List.append_assoc]
    · simp
    · simp [h.1]
  · apply pyslice_last _ (t.version ++ [0x00, 0x01] ++ encodeInputs t.inputs
      ++ encodeOutputs t.outputs ++ t.witness) t.locktime
    · simp [encodeTx, List.append_assoc]
    · exact h.2.1

theorem claim_C8_witness :
    Wellformed oneInTx
    ∧ (strip_witness_data (encodeTx oneInTx)
        = .ok (oneInTx.version ++ encodeInputs oneInTx.inputs
            ++ encodeOutputs oneInTx.outputs ++ oneInTx.locktime)
      ∧ pyslice (encodeTx oneInTx) 0 4 = oneInTx.version
      ∧ pyslice (encodeTx oneInTx) ((encodeTx oneInTx).length - 4)
          (encodeTx oneInTx).length = oneInTx.locktime) :=
  ⟨by decide, claim_C8_assembly oneInTx (by decide)⟩

/-- Claim C10: whenever rewrite returns a result on a marker-bearing
input, the result is the concatenation of four contiguous (clamping)
slices of the raw input — bytes 0–3, the inputs slice from offset 6, the
outputs slice, and the final 4 bytes — so every byte of the result is
drawn from the input. -/
theorem claim_C10_result_is_input_slices (raw out : Bytes)
    (h6 : 6 <= raw.length) (hm : pyslice raw 4 6 = [0x00, 0x01])
    (hok : strip_witness_data raw = .ok out) :
    (∃ b c, out = pyslice raw 0 4 ++ pyslice raw 6 b ++ pyslice raw b c
        ++ pyslice raw (raw.length - 4) raw.length)
    ∧ ∀ x ∈ out, x ∈ raw := by
  rw [strip_witness_data, if_neg (by push_neg; exact ⟨by omega, hm⟩)] at hok
  rcases h1 : read_varint raw 6 with e1 | ⟨ic, vs1⟩
  · rw [h1] at hok
    simp at hok
  · rw [h1] at hok
    simp only [] at hok
    rcases h2 : skipInputs raw (6 + vs1) ic with e2 | posIn
    · rw [h2] at hok
      simp at hok
    · rw [h2] at hok
      simp only [] at hok
      rcases h3 : read_varint raw posIn with e3 | ⟨oc, vs2⟩
      · rw [h3] at hok
        simp at hok
      · rw [h3] at hok
        simp only [] at hok
        rcases h4 : skipOutputs raw (posIn + vs2) oc with e4 | posOut
        · rw [h4] at hok
          simp at hok
        · rw [h4] at hok
          simp only [] at hok
          cases hok
          constructor
          · exact ⟨posIn, posOut, rfl⟩
          · intro x hx
            simp only [List.mem_append] at hx
            rcases hx with ((hx | hx) | hx) | hx
            · exact pyslice_subset raw 0 4 hx
            · exact pyslice_subset raw 6 posIn hx
            · exact pyslice_subset raw posIn posOut hx
            · exact pyslice_subset raw (raw.length - 4) raw.length hx

theorem claim_C10_witness :
    (6 <= clampRaw.length ∧ pyslice clampRaw 4 6 = [0x00, 0x01]
      ∧ strip_witness_data clampRaw = .ok clampOut)
    ∧ (∃ b c, clampOut = pyslice clampRaw 0 4 ++ pyslice clampRaw 6 b
        ++ pyslice clampRaw b c ++ pyslice clampRaw (clampRaw.length - 4) clampRaw.length)
    ∧ ∀ x ∈ clampOut, x ∈ clampRaw :=
  ⟨⟨by decide, by decide, by decide⟩,
   claim_C10_result_is_input_slices clampRaw clampOut (by decide) (by decide) (by decide)⟩

end StripWitness
